import Mathlib

/-!
Verification of the txt2image orchestrator (mlx-chroma).

We give a shallow embedding of the orchestration core of src/txt2image.py:
the latent-size resolver, the staged execution trace (conditioning pull,
timed denoising loop, batched decoding, output saving), the peak-memory
report, the raw-mode file naming, and the grid assembly, and prove the
spec-level properties about them.
-/

namespace MlxChroma

/-!
## Latent-Size Resolver

Embeds to_latent_size (src/txt2image.py lines 14-25).  The function
receives image_size = (w, h), rounds h and w up to multiples of 16,
compares the tuple (h, w) against image_size to decide whether to print a
warning, and returns (h / 8, w / 8).  We return the latent size together
with a Bool recording whether the warning was printed.
-/

def to_latent_size (image_size : ℕ × ℕ) : (ℕ × ℕ) × Bool :=
  let w := image_size.1
  let h := image_size.2
  let h2 := ((h + 15) / 16) * 16
  let w2 := ((w + 15) / 16) * 16
  let warned := decide ((h2, w2) ≠ image_size)
  ((h2 / 8, w2 / 8), warned)

/-- C1: at image_size = (512, 768) both dimensions are multiples of 16,
the returned latent size is (height/8, width/8) = (96, 64), yet the code
prints the warning anyway: the comparison (h, w) != image_size matches a
(height, width) tuple against the (width, height) input, so every
non-square 16-divisible size triggers a spurious diagnostic.  This
contradicts the warning text itself, which announces a size change when
none happened. -/
theorem to_latent_size_spurious_warning :
    16 ∣ 512 ∧ 16 ∣ 768 ∧
      to_latent_size (512, 768) = ((96, 64), true) := by
  refine ⟨⟨32, rfl⟩, ⟨48, rfl⟩, ?_⟩
  rfl

/-- C3: for positive width and height, to_latent_size rounds each
dimension up to the nearest multiple of 16 (a multiple of 16 stays
unchanged, characterised by: the rounded value is a multiple of 16, is at
least the input, and is less than input + 16) and returns
(rounded_height / 8, rounded_width / 8), both components positive. -/
theorem to_latent_size_rounds_up (w h : ℕ) (hw : 0 < w) (hh : 0 < h) :
    ∃ H W : ℕ,
      16 ∣ H ∧ h ≤ H ∧ H < h + 16 ∧
      16 ∣ W ∧ w ≤ W ∧ W < w + 16 ∧
      (to_latent_size (w, h)).1 = (H / 8, W / 8) ∧
      0 < H / 8 ∧ 0 < W / 8 := by
  refine ⟨((h + 15) / 16) * 16, ((w + 15) / 16) * 16, ?_, ?_, ?_, ?_, ?_, ?_, rfl, ?_, ?_⟩
  · exact Dvd.intro _ (mul_comm _ _)
  · omega
  · omega
  · exact Dvd.intro _ (mul_comm _ _)
  · omega
  · omega
  · omega
  · omega

/-- Witness for C3 at the default size 512x512: the hypotheses hold and
the resolver rounds as specified. -/
theorem to_latent_size_rounds_up_witness :
    0 < (512:ℕ) ∧ 0 < (512:ℕ) ∧
      (∃ H W : ℕ,
        16 ∣ H ∧ 512 ≤ H ∧ H < 512 + 16 ∧
        16 ∣ W ∧ 512 ≤ W ∧ W < 512 + 16 ∧
        (to_latent_size (512, 512)).1 = (H / 8, W / 8) ∧
        0 < H / 8 ∧ 0 < W / 8) :=
  ⟨by decide, by decide, to_latent_size_rounds_up 512 512 (by decide) (by decide)⟩

/-!
## Raw-mode file naming

Embeds the save_raw branch (src/txt2image.py lines 126-133):
  *name, suffix = args.output.split(".")
  name = ".".join(name)
  im.save(".".join([name, str(i), suffix]))
Strings are modelled as List Char.  splitOnDot is Python str.split(".")
and joinDot is ".".join.
-/

def splitOnDot : List Char → List (List Char)
  | [] => [[]]
  | c :: rest =>
    if c = '.' then [] :: splitOnDot rest
    else
      match splitOnDot rest with
      | [] => [[c]]
      | s :: ss => (c :: s) :: ss

def joinDot : List (List Char) → List Char
  | [] => []
  | [s] => s
  | s :: ss => s ++ '.' :: joinDot ss

def rawFileName (output : List Char) (i : ℕ) : List Char :=
  let parts := splitOnDot output
  let name := joinDot parts.dropLast
  let suffix := (parts.getLast?).getD []
  joinDot [name, (Nat.repr i).data, suffix]

theorem splitOnDot_ne_nil (l : List Char) : splitOnDot l ≠ [] := by
  cases l with
  | nil => simp [splitOnDot]
  | cons c rest =>
    simp only [splitOnDot]
    split
    · simp
    · split <;> simp

theorem splitOnDot_no_dot (l : List Char) (h : '.' ∉ l) : splitOnDot l = [l] := by
  induction l with
  | nil => rfl
  | cons c rest ih =>
    have hc : c ≠ '.' := fun hc => h (hc ▸ List.mem_cons_self c rest)
    have hrest : '.' ∉ rest := fun hm => h (List.mem_cons_of_mem c hm)
    simp only [splitOnDot, if_neg hc, ih hrest]

theorem splitOnDot_cons_dot (rest : List Char) :
    splitOnDot ('.' :: rest) = [] :: splitOnDot rest := by
  simp [splitOnDot]

theorem splitOnDot_cons_ne (c : Char) (rest : List Char) (hc : c ≠ '.') :
    splitOnDot (c :: rest) =
      match splitOnDot rest with
      | [] => [[c]]
      | s :: ss => (c :: s) :: ss := by
  simp [splitOnDot, hc]

theorem splitOnDot_append_dot (l1 l2 : List Char) :
    splitOnDot (l1 ++ '.' :: l2) = splitOnDot l1 ++ splitOnDot l2 := by
  induction l1 with
  | nil =>
    simp [splitOnDot_cons_dot, splitOnDot]
  | cons c l1 ih =>
    by_cases hc : c = '.'
    · subst hc
      rw [List.cons_append, splitOnDot_cons_dot, ih, splitOnDot_cons_dot,
        List.cons_append]
    · obtain ⟨s, ss, hs⟩ : ∃ s ss, splitOnDot l1 = s :: ss := by
        cases h : splitOnDot l1 with
        | nil => exact absurd h (splitOnDot_ne_nil l1)
        | cons s ss => exact ⟨s, ss, rfl⟩
      rw [List.cons_append, splitOnDot_cons_ne c _ hc, ih, hs,
        splitOnDot_cons_ne c _ hc, hs]
      rfl

theorem joinDot_splitOnDot (l : List Char) : joinDot (splitOnDot l) = l := by
  induction l with
  | nil => rfl
  | cons c rest ih =>
    by_cases hc : c = '.'
    · subst hc
      obtain ⟨s, ss, hs⟩ : ∃ s ss, splitOnDot rest = s :: ss := by
        cases h : splitOnDot rest with
        | nil => exact absurd h (splitOnDot_ne_nil rest)
        | cons s ss => exact ⟨s, ss, rfl⟩
      simp only [splitOnDot, if_pos rfl, hs, joinDot, List.nil_append]
      rw [hs] at ih
      simp [ih]
    · obtain ⟨s, ss, hs⟩ : ∃ s ss, splitOnDot rest = s :: ss := by
        cases h : splitOnDot rest with
        | nil => exact absurd h (splitOnDot_ne_nil rest)
        | cons s ss => exact ⟨s, ss, rfl⟩
      rw [hs] at ih
      simp only [splitOnDot, if_neg hc, hs]
      cases ss with
      | nil => simpa [joinDot] using congrArg (c :: ·) ih
      | cons s2 ss2 =>
        simp only [joinDot] at ih ⊢
        simp [← ih]

/-- C7: for an output path of the form base ++ "." ++ ext where the
extension ext contains no dot (the extension is the part after the last
dot, as computed by split), the file written for image index i is named
base ++ "." ++ str(i) ++ "." ++ ext. -/
theorem rawFileName_inserts_index (base ext : List Char) (i : ℕ)
    (hext : '.' ∉ ext) :
    rawFileName (base ++ '.' :: ext) i =
      base ++ '.' :: ((Nat.repr i).data ++ '.' :: ext) := by
  have hsplit : splitOnDot (base ++ '.' :: ext) = splitOnDot base ++ [ext] := by
    rw [splitOnDot_append_dot, splitOnDot_no_dot ext hext]
  unfold rawFileName
  rw [hsplit]
  simp only [List.dropLast_concat, List.getLast?_concat, Option.getD_some,
    joinDot_splitOnDot]
  rfl

/-- Witness for C7: output "result.png" with image index 1 produces the
file name "result.1.png". -/
theorem rawFileName_inserts_index_witness :
    '.' ∉ ['p', 'n', 'g'] ∧
      rawFileName (['r', 'e', 's', 'u', 'l', 't'] ++ '.' :: ['p', 'n', 'g']) 1 =
        ['r', 'e', 's', 'u', 'l', 't'] ++
          '.' :: ((Nat.repr 1).data ++ '.' :: ['p', 'n', 'g']) :=
  ⟨by decide, rawFileName_inserts_index ['r', 'e', 's', 'u', 'l', 't']
    ['p', 'n', 'g'] 1 (by decide)⟩

/-- C10: for an output path containing no dot at all, splitting on '.'
yields a single part, the computed base name is the empty string, and the
file written for image index i is "." ++ str(i) ++ "." ++ output, a
hidden dotfile. -/
theorem rawFileName_dotless (output : List Char) (i : ℕ)
    (h : '.' ∉ output) :
    rawFileName output i = '.' :: ((Nat.repr i).data ++ '.' :: output) := by
  unfold rawFileName
  rw [splitOnDot_no_dot output h]
  simp only [List.dropLast_single, List.getLast?_singleton, Option.getD_some, joinDot]
  rfl

/-- Witness for C10: output "out" with image index 0 produces the file
name ".0.out". -/
theorem rawFileName_dotless_witness :
    '.' ∉ ['o', 'u', 't'] ∧
      rawFileName ['o', 'u', 't'] 0 =
        '.' :: ((Nat.repr 0).data ++ '.' :: ['o', 'u', 't']) :=
  ⟨by decide, rawFileName_dotless ['o', 'u', 't'] 0 (by decide)⟩

/-!
## Batched Decoder Driver

Embeds the decoding loop (src/txt2image.py lines 117-120):
  for i in range(0, args.n_images, args.decoding_batch_size):
      decoded.append(chroma.decode(x_t[i : i + args.decoding_batch_size], latent_size))
The final latent batch is modelled as a list, Python range(0, n, s) as
rangeStep, and the slice x_t[i : i + s] as (xs.drop i).take s.  The mock
decode is a deterministic per-index map.
-/

def rangeStep (n s : ℕ) : List ℕ := (List.range ((n + s - 1) / s)).map (· * s)

def decodeAll {α β : Type} (bS : ℕ) (dec : List α → List β) (xs : List α) :
    List (List β) :=
  (rangeStep xs.length bS).map (fun i => dec ((xs.drop i).take bS))

theorem le_ceil_mul (n s : ℕ) (hs : 0 < s) : n ≤ (n + s - 1) / s * s := by
  have h1 := Nat.mod_add_div' (n + s - 1) s
  have h2 : (n + s - 1) % s < s := Nat.mod_lt _ hs
  omega

theorem range_chunks_map {α β : Type} (f : α → β) (s c : ℕ) (xs : List α) :
    ((List.range c).map (fun k => ((xs.drop (k * s)).take s).map f)).flatten
      = (xs.take (c * s)).map f := by
  induction c with
  | zero => simp
  | succ c ih =>
    rw [List.range_succ, List.map_append, List.flatten_append, ih]
    simp [Nat.succ_mul, List.take_add]

/-- C5: the decoding loop partitions the index range into contiguous
sub-ranges of length batch_size starting at 0, batch_size, 2·batch_size,
..., and when decode acts as a deterministic per-index map, concatenating
the per-sub-batch results in pull order equals the single full-batch
decode, index for index.  Moreover when batch_size is at least n_images
(and there is at least one image) a single sub-range covering the whole
batch is used. -/
theorem decode_batched {α β : Type} (bS : ℕ) (hb : 0 < bS) (xs : List α)
    (f : α → β) :
    (decodeAll bS (List.map f) xs).flatten = xs.map f ∧
    (0 < xs.length → xs.length ≤ bS →
      decodeAll bS (List.map f) xs = [xs.map f]) := by
  constructor
  · unfold decodeAll rangeStep
    rw [List.map_map]
    show ((List.range ((xs.length + bS - 1) / bS)).map
      (fun k => ((xs.drop (k * bS)).take bS).map f)).flatten = xs.map f
    rw [range_chunks_map f bS ((xs.length + bS - 1) / bS) xs,
      List.take_of_length_le (le_ceil_mul xs.length bS hb)]
  · intro hpos hle
    have hdiv : (xs.length + bS - 1) / bS = 1 :=
      Nat.div_eq_of_lt_le (by omega) (by omega)
    unfold decodeAll rangeStep
    rw [hdiv]
    show [List.map f ((xs.drop (0 * bS)).take bS)] = [xs.map f]
    rw [Nat.zero_mul, List.drop_zero, List.take_of_length_le hle]

/-- Witness for C5 with batch size 2 over a three-element batch. -/
theorem decode_batched_witness :
    0 < 2 ∧
      ((decodeAll 2 (List.map Nat.succ) [10, 20, 30]).flatten =
          [10, 20, 30].map Nat.succ ∧
        (0 < ([10, 20, 30] : List ℕ).length → ([10, 20, 30] : List ℕ).length ≤ 2 →
          decodeAll 2 (List.map Nat.succ) [10, 20, 30] =
            [[10, 20, 30].map Nat.succ])) :=
  ⟨by decide, decode_batched 2 (by decide) [10, 20, 30] Nat.succ⟩

/-!
## Peak-memory report

Embeds the three phase-local readings and the overall peak
(src/txt2image.py lines 98, 113, 121-124).  The memory-tracking backend
is mocked by the three raw values r1, r2, r3 that mx.get_peak_memory()
returns at the three read points (the counter is reset after the first
two reads, so the readings are phase-local); each is divided by 1024**3
and the overall peak is the three-argument Python max.
-/

def peakReport (r1 r2 r3 : ℚ) : ℚ × ℚ × ℚ × ℚ :=
  let peak_mem_conditioning := r1 / 1024 ^ 3
  let peak_mem_generation := r2 / 1024 ^ 3
  let peak_mem_decoding := r3 / 1024 ^ 3
  let peak_mem_overall :=
    max peak_mem_conditioning (max peak_mem_generation peak_mem_decoding)
  (peak_mem_conditioning, peak_mem_generation, peak_mem_decoding,
    peak_mem_overall)

/-- C6: for any positive readings of the memory backend, the reported
overall peak equals the maximum of the three phase-local peaks, is an
upper bound of each of them, and is strictly below their sum (so it is
never their sum). -/
theorem peak_overall_is_max (r1 r2 r3 : ℚ)
    (h1 : 0 < r1) (h2 : 0 < r2) (h3 : 0 < r3) :
    (peakReport r1 r2 r3).2.2.2 =
      max (peakReport r1 r2 r3).1
        (max (peakReport r1 r2 r3).2.1 (peakReport r1 r2 r3).2.2.1) ∧
    (peakReport r1 r2 r3).1 ≤ (peakReport r1 r2 r3).2.2.2 ∧
    (peakReport r1 r2 r3).2.1 ≤ (peakReport r1 r2 r3).2.2.2 ∧
    (peakReport r1 r2 r3).2.2.1 ≤ (peakReport r1 r2 r3).2.2.2 ∧
    (peakReport r1 r2 r3).2.2.2 <
      (peakReport r1 r2 r3).1 + (peakReport r1 r2 r3).2.1 +
        (peakReport r1 r2 r3).2.2.1 := by
  dsimp only [peakReport]
  have g1 : 0 < r1 / 1024 ^ 3 := by positivity
  have g2 : 0 < r2 / 1024 ^ 3 := by positivity
  have g3 : 0 < r3 / 1024 ^ 3 := by positivity
  refine ⟨rfl, le_max_left _ _,
    le_trans (le_max_left _ _) (le_max_right _ _),
    le_trans (le_max_right _ _) (le_max_right _ _), ?_⟩
  apply max_lt
  · linarith
  · apply max_lt <;> linarith

/-- Witness for C6 at readings 1, 2, 3. -/
theorem peak_overall_is_max_witness :
    (0:ℚ) < 1 ∧
      ((peakReport 1 2 3).2.2.2 =
        max (peakReport 1 2 3).1
          (max (peakReport 1 2 3).2.1 (peakReport 1 2 3).2.2.1) ∧
      (peakReport 1 2 3).1 ≤ (peakReport 1 2 3).2.2.2 ∧
      (peakReport 1 2 3).2.1 ≤ (peakReport 1 2 3).2.2.2 ∧
      (peakReport 1 2 3).2.2.1 ≤ (peakReport 1 2 3).2.2.2 ∧
      (peakReport 1 2 3).2.2.2 <
        (peakReport 1 2 3).1 + (peakReport 1 2 3).2.1 +
          (peakReport 1 2 3).2.2.1) :=
  ⟨by norm_num, peak_overall_is_max 1 2 3 (by norm_num) (by norm_num) (by norm_num)⟩

/-!
## Staged execution trace

Embeds the order of observable operations of the __main__ block
(src/txt2image.py lines 96-147) as a list of events:
  - pull 0 / eval: conditioning = next(latents); mx.eval(conditioning)
    (lines 96-97);
  - timerStart: start = time.perf_counter() (line 105);
  - pull (k+1) / eval for k < steps: the denoising loop, which pulls the
    remaining items of the lazy sequence (lines 107-108).  The sequence
    is modelled from the spec: generate_latents lives outside this file
    and the spec fixes the sequence at one conditioning item followed by
    num_steps latent items, so the for loop performs exactly num_steps
    pulls;
  - decodeEv i bS / eval: one decode call per sub-batch start index
    (lines 118-120);
  - saveFile i or saveGrid: the output writes (lines 126-145);
  - timerStop: end = time.perf_counter() (line 146), which in the source
    is placed after the decoding loop and after the save branch.
-/

inductive Ev : Type
  | pull (i : ℕ)
  | eval
  | timerStart
  | timerStop
  | decodeEv (i len : ℕ)
  | saveFile (i : ℕ)
  | saveGrid
  deriving DecidableEq, Repr

def condSegment : List Ev := [Ev.pull 0, Ev.eval]

def denoiseLoop (steps : ℕ) : List Ev :=
  ((List.range steps).map (fun k => [Ev.pull (k + 1), Ev.eval])).flatten

def decodeLoop (nI bS : ℕ) : List Ev :=
  ((rangeStep nI bS).map (fun i => [Ev.decodeEv i bS, Ev.eval])).flatten

def saveEvents (saveRaw : Bool) (nI : ℕ) : List Ev :=
  if saveRaw then (List.range nI).map Ev.saveFile else [Ev.saveGrid]

def mainTrace (steps nI bS : ℕ) (saveRaw : Bool) : List Ev :=
  condSegment ++ [Ev.timerStart] ++ denoiseLoop steps ++ decodeLoop nI bS ++
    saveEvents saveRaw nI ++ [Ev.timerStop]

def notStart (e : Ev) : Bool := decide (e ≠ Ev.timerStart)

def notStop (e : Ev) : Bool := decide (e ≠ Ev.timerStop)

/-- The events lying strictly between the timer start and the timer stop:
the wall-clock interval reported as elapsed_time. -/
def timedWindow (tr : List Ev) : List Ev :=
  ((tr.dropWhile notStart).drop 1).takeWhile notStop

def isPull : Ev → Bool
  | .pull _ => true
  | _ => false

def isDecode : Ev → Bool
  | .decodeEv _ _ => true
  | _ => false

def isSave : Ev → Bool
  | .saveFile _ => true
  | .saveGrid => true
  | _ => false

theorem takeWhile_append_all {α : Type} (p : α → Bool) (l1 l2 : List α)
    (h : ∀ a ∈ l1, p a = true) :
    (l1 ++ l2).takeWhile p = l1 ++ l2.takeWhile p := by
  induction l1 with
  | nil => simp
  | cons a l1 ih =>
    have ha := h a (List.mem_cons_self a l1)
    simp [List.takeWhile_cons, ha,
      ih (fun b hb => h b (List.mem_cons_of_mem a hb))]

theorem dropWhile_append_all {α : Type} (p : α → Bool) (l1 l2 : List α)
    (h : ∀ a ∈ l1, p a = true) :
    (l1 ++ l2).dropWhile p = l2.dropWhile p := by
  induction l1 with
  | nil => simp
  | cons a l1 ih =>
    have ha := h a (List.mem_cons_self a l1)
    simp [List.dropWhile_cons, ha,
      ih (fun b hb => h b (List.mem_cons_of_mem a hb))]

theorem denoise_shape (steps : ℕ) (e : Ev) (he : e ∈ denoiseLoop steps) :
    ∃ k, k < steps ∧ (e = Ev.pull (k + 1) ∨ e = Ev.eval) := by
  unfold denoiseLoop at he
  obtain ⟨l, hl, hel⟩ := List.mem_flatten.1 he
  obtain ⟨k, hk, rfl⟩ := List.mem_map.1 hl
  refine ⟨k, List.mem_range.1 hk, ?_⟩
  simpa using hel

theorem decode_shape (nI bS : ℕ) (e : Ev) (he : e ∈ decodeLoop nI bS) :
    ∃ i, e = Ev.decodeEv i bS ∨ e = Ev.eval := by
  unfold decodeLoop at he
  obtain ⟨l, hl, hel⟩ := List.mem_flatten.1 he
  obtain ⟨i, _, rfl⟩ := List.mem_map.1 hl
  refine ⟨i, ?_⟩
  simpa using hel

theorem save_shape (sr : Bool) (nI : ℕ) (e : Ev) (he : e ∈ saveEvents sr nI) :
    (∃ i, e = Ev.saveFile i) ∨ e = Ev.saveGrid := by
  cases sr with
  | false =>
    have h : e ∈ [Ev.saveGrid] := he
    simp only [List.mem_singleton] at h
    exact Or.inr h
  | true =>
    have h : e ∈ (List.range nI).map Ev.saveFile := he
    obtain ⟨i, _, rfl⟩ := List.mem_map.1 h
    exact Or.inl ⟨i, rfl⟩

theorem timedWindow_mainTrace (steps nI bS : ℕ) (sr : Bool) :
    timedWindow (mainTrace steps nI bS sr) =
      denoiseLoop steps ++ decodeLoop nI bS ++ saveEvents sr nI := by
  have hden : ∀ e ∈ denoiseLoop steps, notStop e = true := by
    intro e he
    obtain ⟨k, -, h | h⟩ := denoise_shape steps e he <;> subst h <;> rfl
  have hdec : ∀ e ∈ decodeLoop nI bS, notStop e = true := by
    intro e he
    obtain ⟨i, h | h⟩ := decode_shape nI bS e he <;> subst h <;> rfl
  have hsave : ∀ e ∈ saveEvents sr nI, notStop e = true := by
    intro e he
    rcases save_shape sr nI e he with ⟨i, h⟩ | h <;> subst h <;> rfl
  unfold timedWindow mainTrace
  simp only [List.append_assoc]
  rw [dropWhile_append_all notStart condSegment _ (by decide)]
  have hst : notStart Ev.timerStart = false := rfl
  rw [List.singleton_append, List.dropWhile_cons, hst]
  simp only [Bool.false_eq_true, if_false, List.drop_succ_cons, List.drop_zero]
  rw [takeWhile_append_all notStop _ _ hden, takeWhile_append_all notStop _ _ hdec,
    takeWhile_append_all notStop _ _ hsave]
  have hstop : (List.takeWhile notStop [Ev.timerStop]) = [] := rfl
  rw [hstop]
  simp [List.append_assoc]

theorem mainTrace_cases (steps nI bS : ℕ) (sr : Bool) (e : Ev)
    (he : e ∈ mainTrace steps nI bS sr) :
    e ∈ condSegment ∨ e = Ev.timerStart ∨ e ∈ denoiseLoop steps ∨
    e ∈ decodeLoop nI bS ∨ e ∈ saveEvents sr nI ∨ e = Ev.timerStop := by
  unfold mainTrace at he
  simp only [List.mem_append, List.mem_singleton] at he
  tauto

/-- C2 (as stated) is false: the counterexample run with steps = 1,
n_images = 1, batch_size = 1, save_raw = true has both a decode event and
a save event inside the timed window, because the source stops the timer
(line 146) only after the decoding loop and the save branch. -/
theorem timer_window_counterexample :
    Ev.decodeEv 0 1 ∈ timedWindow (mainTrace 1 1 1 true) ∧
      Ev.saveFile 0 ∈ timedWindow (mainTrace 1 1 1 true) := by
  decide

/-- C2 amended: the elapsed wall-clock interval excludes the conditioning
phase (the conditioning pull happens strictly before the timer starts and
is never inside the window), but it includes the decoding and the
output-saving work: every decode event and every save event of the run
lies inside the window. -/
theorem timer_window_content (steps nI bS : ℕ) (sr : Bool) (e : Ev)
    (he : e ∈ mainTrace steps nI bS sr) :
    Ev.pull 0 ∉ timedWindow (mainTrace steps nI bS sr) ∧
    (isDecode e = true → e ∈ timedWindow (mainTrace steps nI bS sr)) ∧
    (isSave e = true → e ∈ timedWindow (mainTrace steps nI bS sr)) := by
  rw [timedWindow_mainTrace]
  refine ⟨?_, ?_, ?_⟩
  · intro hmem
    rcases List.mem_append.1 hmem with hmem | hmem
    · rcases List.mem_append.1 hmem with hmem | hmem
      · obtain ⟨k, -, h | h⟩ := denoise_shape steps _ hmem
        · injection h with h; omega
        · exact Ev.noConfusion h
      · obtain ⟨i, h | h⟩ := decode_shape nI bS _ hmem
        · exact Ev.noConfusion h
        · exact Ev.noConfusion h
    · rcases save_shape sr nI _ hmem with ⟨i, h⟩ | h
      · exact Ev.noConfusion h
      · exact Ev.noConfusion h
  · intro hdec
    rcases mainTrace_cases steps nI bS sr e he with hc | hc | hc | hc | hc | hc
    · have h : e = Ev.pull 0 ∨ e = Ev.eval := by simpa [condSegment] using hc
      rcases h with h | h <;> subst h <;> simp [isDecode] at hdec
    · subst hc; simp [isDecode] at hdec
    · obtain ⟨k, -, h | h⟩ := denoise_shape steps e hc <;> subst h <;>
        simp [isDecode] at hdec
    · exact List.mem_append.2 (Or.inl (List.mem_append.2 (Or.inr hc)))
    · rcases save_shape sr nI e hc with ⟨i, h⟩ | h <;> subst h <;>
        simp [isDecode] at hdec
    · subst hc; simp [isDecode] at hdec
  · intro hsv
    rcases mainTrace_cases steps nI bS sr e he with hc | hc | hc | hc | hc | hc
    · have h : e = Ev.pull 0 ∨ e = Ev.eval := by simpa [condSegment] using hc
      rcases h with h | h <;> subst h <;> simp [isSave] at hsv
    · subst hc; simp [isSave] at hsv
    · obtain ⟨k, -, h | h⟩ := denoise_shape steps e hc <;> subst h <;>
        simp [isSave] at hsv
    · obtain ⟨i, h | h⟩ := decode_shape nI bS e hc <;> subst h <;>
        simp [isSave] at hsv
    · exact List.mem_append.2 (Or.inr hc)
    · subst hc; simp [isSave] at hsv

/-- Witness for the amended C2: in the run with steps = 1, n_images = 1,
batch_size = 1, save_raw = true, the decode event is in the trace and the
theorem places it inside the timed window. -/
theorem timer_window_content_witness :
    Ev.decodeEv 0 1 ∈ mainTrace 1 1 1 true ∧
      (Ev.pull 0 ∉ timedWindow (mainTrace 1 1 1 true) ∧
       (isDecode (Ev.decodeEv 0 1) = true →
         Ev.decodeEv 0 1 ∈ timedWindow (mainTrace 1 1 1 true)) ∧
       (isSave (Ev.decodeEv 0 1) = true →
         Ev.decodeEv 0 1 ∈ timedWindow (mainTrace 1 1 1 true))) :=
  ⟨by decide, timer_window_content 1 1 1 true (Ev.decodeEv 0 1) (by decide)⟩

theorem denoise_filter_pull (steps : ℕ) :
    (denoiseLoop steps).filter isPull =
      (List.range steps).map (fun k => Ev.pull (k + 1)) := by
  induction steps with
  | zero => rfl
  | succ s ih =>
    unfold denoiseLoop at ih ⊢
    rw [List.range_succ, List.map_append, List.flatten_append,
      List.filter_append, ih, List.map_append]
    rfl

theorem decode_filter_pull (nI bS : ℕ) : (decodeLoop nI bS).filter isPull = [] := by
  unfold decodeLoop
  generalize rangeStep nI bS = l
  induction l with
  | nil => rfl
  | cons i l ih => simp [isPull, ih]

theorem save_filter_pull (sr : Bool) (nI : ℕ) :
    (saveEvents sr nI).filter isPull = [] := by
  cases sr with
  | false => rfl
  | true =>
    show ((List.range nI).map Ev.saveFile).filter isPull = []
    generalize List.range nI = l
    induction l with
    | nil => rfl
    | cons i l ih => simp [isPull, ih]

theorem block_in_denoise (steps k : ℕ) (hk : k < steps) :
    ∃ s t, s ++ [Ev.pull (k + 1), Ev.eval] ++ t = denoiseLoop steps := by
  unfold denoiseLoop
  have hmem : k ∈ List.range steps := List.mem_range.2 hk
  clear hk
  induction steps with
  | zero => cases hmem
  | succ s ih =>
    rw [List.range_succ] at hmem ⊢
    rw [List.map_append, List.flatten_append]
    rcases List.mem_append.1 hmem with hmem | hmem
    · obtain ⟨u, v, huv⟩ := ih hmem
      exact ⟨u, v ++ ([[Ev.pull (s + 1), Ev.eval]]).flatten, by
        rw [← huv]; simp [List.append_assoc]⟩
    · have hks : k = s := by simpa using hmem
      subst hks
      exact ⟨((List.range k).map (fun j => [Ev.pull (j + 1), Ev.eval])).flatten,
        [], by simp⟩

/-- C4: over the whole run the orchestrator pulls exactly steps + 1 items
from the lazy sequence, namely items 0, 1, ..., steps in order (the
sequence holds steps + 1 items, so this exhausts it); the only pull
happening before the timer starts is the conditioning pull of item 0;
and every denoising pull of item k + 1 (k < steps) is immediately
followed by a forced evaluation. -/
theorem pull_discipline (steps nI bS : ℕ) (sr : Bool) (k : ℕ)
    (hk : k < steps) :
    (mainTrace steps nI bS sr).filter isPull =
      (List.range (steps + 1)).map Ev.pull ∧
    ((mainTrace steps nI bS sr).takeWhile notStart).filter isPull =
      [Ev.pull 0] ∧
    ∃ s t, s ++ [Ev.pull (k + 1), Ev.eval] ++ t = mainTrace steps nI bS sr := by
  refine ⟨?_, ?_, ?_⟩
  · unfold mainTrace
    simp only [List.filter_append]
    rw [denoise_filter_pull, decode_filter_pull, save_filter_pull]
    have h1 : condSegment.filter isPull = [Ev.pull 0] := rfl
    have h2 : ([Ev.timerStart]).filter isPull = [] := rfl
    have h3 : ([Ev.timerStop]).filter isPull = [] := rfl
    rw [h1, h2, h3, List.range_succ_eq_map, List.map_cons, List.map_map]
    simp [Function.comp_def]
  · unfold mainTrace
    simp only [List.append_assoc]
    rw [takeWhile_append_all notStart condSegment _ (by decide)]
    have hst : notStart Ev.timerStart = false := rfl
    rw [List.singleton_append, List.takeWhile_cons, hst]
    simp only [Bool.false_eq_true, if_false, List.append_nil]
    rfl
  · obtain ⟨s, t, hst⟩ := block_in_denoise steps k hk
    refine ⟨condSegment ++ [Ev.timerStart] ++ s,
      t ++ decodeLoop nI bS ++ saveEvents sr nI ++ [Ev.timerStop], ?_⟩
    unfold mainTrace
    rw [← hst]
    simp [List.append_assoc]

/-- Witness for C4 in a run with steps = 2: the pull list is
[pull 0, pull 1, pull 2], only pull 0 precedes the timer, and the
denoising pull of item 2 is immediately followed by an evaluation. -/
theorem pull_discipline_witness :
    1 < 2 ∧
      ((mainTrace 2 1 1 false).filter isPull =
        (List.range (2 + 1)).map Ev.pull ∧
      ((mainTrace 2 1 1 false).takeWhile notStart).filter isPull =
        [Ev.pull 0] ∧
      ∃ s t, s ++ [Ev.pull (1 + 1), Ev.eval] ++ t = mainTrace 2 1 1 false) :=
  ⟨by decide, pull_discipline 2 1 1 false 1 (by decide)⟩

/-!
## Grid assembly

Embeds the grid branch (src/txt2image.py lines 136-145):
  x = mx.concatenate(decoded, axis=0)                  -- B x H x W x C
  x = mx.pad(x, [(0, 0), (4, 4), (4, 4), (0, 0)])      -- zero padding
  B, H, W, C = x.shape                                 -- H, W now padded
  x = x.reshape(n_rows, B // n_rows, H, W, C).transpose(0, 2, 1, 3, 4)
  x = x.reshape(n_rows * H, B // n_rows * W, C)

Tensors are modelled through their row-major (C-order) flat data: a
reshape keeps the flat data and only reinterprets the shape, so it is
embedded as flattening at the old shape followed by indexing at the new
shape; pad and transpose are index manipulations.  The first reshape
requires the element counts to agree, i.e. n_rows * (B // n_rows) = B;
otherwise mx.reshape raises and the run aborts before any file is
written, which gridBranch models by returning none.  The final uint8
quantization (x * 255) is applied pointwise after assembly and is not
part of the tile layout.
-/

def pad44 (H W : ℕ) (img : ℕ → ℕ → ℕ → ℕ → ℚ) (b y x c : ℕ) : ℚ :=
  if 4 ≤ y ∧ y < H + 4 ∧ 4 ≤ x ∧ x < W + 4 then img b (y - 4) (x - 4) c else 0

def flat4 (H W C : ℕ) (f : ℕ → ℕ → ℕ → ℕ → ℚ) (n : ℕ) : ℚ :=
  f (n / (H * W * C)) (n / (W * C) % H) (n / C % W) (n % C)

def view5 (K H W C : ℕ) (g : ℕ → ℚ) (i j y x c : ℕ) : ℚ :=
  g ((((i * K + j) * H + y) * W + x) * C + c)

def transpose02134 (t : ℕ → ℕ → ℕ → ℕ → ℕ → ℚ) (i y j x c : ℕ) : ℚ :=
  t i j y x c

def flat5 (H K W C : ℕ) (t : ℕ → ℕ → ℕ → ℕ → ℕ → ℚ) (n : ℕ) : ℚ :=
  t (n / (H * K * W * C)) (n / (K * W * C) % H) (n / (W * C) % K) (n / C % W)
    (n % C)

def view3 (cols C : ℕ) (g : ℕ → ℚ) (Y X c : ℕ) : ℚ :=
  g ((Y * cols + X) * C + c)

def gridImage (nrows B H W C : ℕ) (img : ℕ → ℕ → ℕ → ℕ → ℚ) :
    ℕ → ℕ → ℕ → ℚ :=
  view3 (B / nrows * (W + 8)) C
    (flat5 (H + 8) (B / nrows) (W + 8) C
      (transpose02134
        (view5 (B / nrows) (H + 8) (W + 8) C
          (flat4 (H + 8) (W + 8) C (pad44 H W img)))))

def gridShape (nrows B H W C : ℕ) : ℕ × ℕ × ℕ :=
  (nrows * (H + 8), B / nrows * (W + 8), C)

def gridBranch (nrows B H W C : ℕ) (img : ℕ → ℕ → ℕ → ℕ → ℚ) :
    Option ((ℕ × ℕ × ℕ) × (ℕ → ℕ → ℕ → ℚ)) :=
  if nrows * (B / nrows) * ((H + 8) * ((W + 8) * C)) =
      B * ((H + 8) * ((W + 8) * C))
  then some (gridShape nrows B H W C, gridImage nrows B H W C img)
  else none

theorem horner_div (a b m : ℕ) (hb : b < m) : (a * m + b) / m = a := by
  have hm : 0 < m := Nat.lt_of_le_of_lt (Nat.zero_le b) hb
  rw [Nat.add_comm, Nat.add_mul_div_right b a hm, Nat.div_eq_of_lt hb,
    Nat.zero_add]

theorem horner_mod (a b m : ℕ) (hb : b < m) : (a * m + b) % m = b := by
  rw [Nat.add_comm, Nat.add_mul_mod_self_right, Nat.mod_eq_of_lt hb]

theorem flat4_lin (H W C : ℕ) (p : ℕ → ℕ → ℕ → ℕ → ℚ) (b y x c : ℕ)
    (hy : y < H) (hx : x < W) (hc : c < C) :
    flat4 H W C p (((b * H + y) * W + x) * C + c) = p b y x c := by
  have e2 : (((b * H + y) * W + x) * C + c) / C = (b * H + y) * W + x :=
    horner_div _ _ _ hc
  have e4 : (((b * H + y) * W + x) * C + c) / (W * C) = b * H + y := by
    rw [mul_comm W C, ← Nat.div_div_eq_div_mul, e2]
    exact horner_div _ _ _ hx
  have e6 : (((b * H + y) * W + x) * C + c) / (H * W * C) = b := by
    have hsh : H * W * C = W * C * H := by ring
    rw [hsh, ← Nat.div_div_eq_div_mul, e4]
    exact horner_div _ _ _ hy
  unfold flat4
  rw [e6, e4, e2, horner_mod _ _ _ hc, horner_mod _ _ _ hy, horner_mod _ _ _ hx]

theorem flat5_lin (H K W C : ℕ) (t : ℕ → ℕ → ℕ → ℕ → ℕ → ℚ)
    (i y j x c : ℕ) (hy : y < H) (hj : j < K) (hx : x < W) (hc : c < C) :
    flat5 H K W C t (((((i * H + y) * K + j) * W + x) * C + c)) = t i y j x c := by
  have e2 : ((((i * H + y) * K + j) * W + x) * C + c) / C =
      ((i * H + y) * K + j) * W + x := horner_div _ _ _ hc
  have e4 : ((((i * H + y) * K + j) * W + x) * C + c) / (W * C) =
      (i * H + y) * K + j := by
    rw [mul_comm W C, ← Nat.div_div_eq_div_mul, e2]
    exact horner_div _ _ _ hx
  have e6 : ((((i * H + y) * K + j) * W + x) * C + c) / (K * W * C) =
      i * H + y := by
    have hsh : K * W * C = W * C * K := by ring
    rw [hsh, ← Nat.div_div_eq_div_mul, e4]
    exact horner_div _ _ _ hj
  have e8 : ((((i * H + y) * K + j) * W + x) * C + c) / (H * K * W * C) = i := by
    have hsh : H * K * W * C = K * W * C * H := by ring
    rw [hsh, ← Nat.div_div_eq_div_mul, e6]
    exact horner_div _ _ _ hy
  unfold flat5
  rw [e8, e6, e4, e2, horner_mod _ _ _ hc, horner_mod _ _ _ hy,
    horner_mod _ _ _ hj, horner_mod _ _ _ hx]

/-- C8: when n_images = B is divisible by n_rows, the grid branch
succeeds, the assembled image has shape
(n_rows * (H + 8), (B / n_rows) * (W + 8), C) after 4-pixel zero padding
on each side of height and width, and the tile at grid position
(row r, col q) equals the padded decoded image of index
r * (B / n_rows) + q, pixel for pixel. -/
theorem grid_assembly (nrows B H W C : ℕ) (img : ℕ → ℕ → ℕ → ℕ → ℚ)
    (hdvd : nrows ∣ B) (_hC : 0 < C) (r q y x ch : ℕ)
    (_hr : r < nrows) (hq : q < B / nrows) (hy : y < H + 8) (hx : x < W + 8)
    (hch : ch < C) :
    gridBranch nrows B H W C img =
      some ((nrows * (H + 8), B / nrows * (W + 8), C),
        gridImage nrows B H W C img) ∧
    gridImage nrows B H W C img (r * (H + 8) + y) (q * (W + 8) + x) ch =
      pad44 H W img (r * (B / nrows) + q) y x ch := by
  constructor
  · unfold gridBranch gridShape
    rw [Nat.mul_div_cancel' hdvd]
    simp
  · unfold gridImage view3
    have hlin : ((r * (H + 8) + y) * (B / nrows * (W + 8)) +
          (q * (W + 8) + x)) * C + ch =
        ((((r * (H + 8) + y) * (B / nrows) + q) * (W + 8) + x)) * C + ch := by
      ring
    rw [hlin, flat5_lin (H + 8) (B / nrows) (W + 8) C _ r y q x ch hy hq hx hch]
    unfold transpose02134 view5
    exact flat4_lin (H + 8) (W + 8) C _ (r * (B / nrows) + q) y x ch hy hx hch

/-- Witness for C8: a 2 x 2 grid of 1 x 1 x 1 images; the tile at grid
position (1, 1) reproduces the padded image of index 1 * 2 + 1 = 3. -/
theorem grid_assembly_witness :
    (2:ℕ) ∣ 4 ∧
      (gridBranch 2 4 1 1 1 (fun b _ _ _ => (b : ℚ)) =
        some ((2 * (1 + 8), 4 / 2 * (1 + 8), 1),
          gridImage 2 4 1 1 1 (fun b _ _ _ => (b : ℚ))) ∧
      gridImage 2 4 1 1 1 (fun b _ _ _ => (b : ℚ))
          (1 * (1 + 8) + 0) (1 * (1 + 8) + 0) 0 =
        pad44 1 1 (fun b _ _ _ => (b : ℚ)) (1 * (4 / 2) + 1) 0 0 0) :=
  ⟨by decide, grid_assembly 2 4 1 1 1 (fun b _ _ _ => (b : ℚ)) (by decide)
    (by decide) 1 1 0 0 0 (by decide) (by decide) (by decide) (by decide)
    (by decide)⟩

/-- C9: when n_images = B is not divisible by n_rows (channel count
positive), the element counts of the grid reshape disagree, so the
reshape fails and the run aborts: the grid branch produces no output
image (returns none), never a silently malformed one. -/
theorem grid_nondivisible_rejected (nrows B H W C : ℕ)
    (hC : 0 < C) (hnd : ¬ nrows ∣ B) (img : ℕ → ℕ → ℕ → ℕ → ℚ) :
    gridBranch nrows B H W C img = none := by
  unfold gridBranch
  rw [if_neg]
  intro h
  have hX : 0 < (H + 8) * ((W + 8) * C) := by positivity
  have hB := Nat.eq_of_mul_eq_mul_right hX h
  exact hnd ⟨B / nrows, hB.symm⟩

/-- Witness for C9 at the spec example n_images = 5, n_rows = 2 with
64 x 64 x 3 images: the run is rejected with no output. -/
theorem grid_nondivisible_rejected_witness :
    0 < 3 ∧ ¬ (2:ℕ) ∣ 5 ∧
      gridBranch 2 5 64 64 3 (fun _ _ _ _ => 0) = none :=
  ⟨by decide, by decide,
    grid_nondivisible_rejected 2 5 64 64 3 (by decide) (by decide) _⟩

end MlxChroma
